import Mathlib

/-!
Verification of the cas-service dispatcher core against its specification.

The definitions below are a shallow embedding of the Python sources:

* `src/cas_service/preprocessing.py`  — the 4-phase LaTeX preprocessor
* `src/cas_service/main.py`           — engine selection and parallel validate
* `src/cas_service/runtime/executor.py` — subprocess executor, jobs, eviction
* `src/cas_service/engines/matlab_engine.py` — input guard, compute dispatch
* `src/cas_service/engines/wolframalpha_engine.py` — remote oracle engine

Python strings are modelled as `List Char` / `String`; `re.sub` calls with
the concrete patterns appearing in the source are modelled by single-pass
scanners with the same leftmost, non-overlapping semantics; fallible code
is modelled with `Except` / `Option`.  Wall-clock effects (elapsed times,
actual subprocess behaviour) are passed in as explicit parameters.
-/

set_option autoImplicit false

namespace CasService

/-! ## Preprocessing (`src/cas_service/preprocessing.py`)

Python `re` / `str.replace` semantics used by the file:

* `re.sub(pat, "", s)` for a literal pattern is a single left-to-right pass
  removing non-overlapping occurrences; already-emitted output is not
  rescanned.
* `str.replace(old, new)` has the same single-pass semantics.
* `\s` is modelled by the ASCII whitespace class (the inputs the service
  handles are ASCII LaTeX).

Note that `_SYNONYMS` in the source is written with raw strings such as
`r"\\dfrac"` (two literal backslashes) and is applied with the plain
`str.replace`, not `re.sub`; the embedding reproduces the two-backslash
literals faithfully.
-/

/-- ASCII whitespace, the characters matched by CPython's `\s` on ASCII
text and stripped by `str.strip()`. -/
def isPySpace (c : Char) : Bool :=
  c = ' ' || c = '\t' || c = '\n' || c = '\x0d' || c = '\x0b' || c = '\x0c'

/-- One fuelled step of single-pass literal replacement: the semantics of
Python `s.replace(pat, rep)` and of `re.sub(pat, rep, s)` for a literal
pattern.  `fuel` bounds the number of characters consumed. -/
def replaceAllFuel (pat rep : List Char) : Nat → List Char → List Char
  | 0, s => s
  | _ + 1, [] => []
  | fuel + 1, c :: rest =>
    if pat ≠ [] ∧ pat.isPrefixOf (c :: rest) then
      rep ++ replaceAllFuel pat rep fuel ((c :: rest).drop pat.length)
    else
      c :: replaceAllFuel pat rep fuel rest

/-- Single-pass literal replacement over a character list. -/
def replaceAll (pat rep s : List Char) : List Char :=
  replaceAllFuel pat rep s.length s

/-- Single-pass remover for the environment patterns of phase 1, e.g.
`\begin{equation\*?}`: at each position the scanner removes
`base ++ "*}"` or `base ++ "}"` (where `base` is, say,
`\begin{equation`), mirroring one `re.sub(pattern, "", s)` call. -/
def removeEnvFuel (base : List Char) : Nat → List Char → List Char
  | 0, s => s
  | _ + 1, [] => []
  | fuel + 1, c :: rest =>
    if (base ++ ['*', '}']).isPrefixOf (c :: rest) then
      removeEnvFuel base fuel ((c :: rest).drop (base.length + 2))
    else if (base ++ ['}']).isPrefixOf (c :: rest) then
      removeEnvFuel base fuel ((c :: rest).drop (base.length + 1))
    else
      c :: removeEnvFuel base fuel rest

/-- Run one environment-removal pass. -/
def removeEnv (base s : List Char) : List Char :=
  removeEnvFuel base s.length s

/-- Split a character list at the first `}`: returns the part before it and
the part after it, or `none` when there is no `}` (the regex
`[^\x7d]*\x7d` then has no match). -/
def splitAtRBrace : List Char → Option (List Char × List Char)
  | [] => none
  | c :: rest =>
    if c = '}' then some ([], rest)
    else
      match splitAtRBrace rest with
      | none => none
      | some (a, b) => some (c :: a, b)

/-- Single-pass remover for `\label{[^\x7d]*}` / `\tag{[^\x7d]*}`:
`cmd` is the opening literal (e.g. `\label\x7b`); a match removes the
command and its braced argument. -/
def removeCmdBraceFuel (cmd : List Char) : Nat → List Char → List Char
  | 0, s => s
  | _ + 1, [] => []
  | fuel + 1, c :: rest =>
    if cmd.isPrefixOf (c :: rest) then
      match splitAtRBrace ((c :: rest).drop cmd.length) with
      | some (_, after) => removeCmdBraceFuel cmd fuel after
      | none => c :: removeCmdBraceFuel cmd fuel rest
    else
      c :: removeCmdBraceFuel cmd fuel rest

/-- Run one command-with-braced-argument removal pass. -/
def removeCmdBrace (cmd s : List Char) : List Char :=
  removeCmdBraceFuel cmd s.length s

/-- Single-pass extractor for the font commands, e.g.
`\mathrm{([^\x7d]*)}` replaced by the captured group: a match drops the
command shell and keeps the braced content. -/
def extractCmdFuel (cmd : List Char) : Nat → List Char → List Char
  | 0, s => s
  | _ + 1, [] => []
  | fuel + 1, c :: rest =>
    if cmd.isPrefixOf (c :: rest) then
      match splitAtRBrace ((c :: rest).drop cmd.length) with
      | some (content, after) => content ++ extractCmdFuel cmd fuel after
      | none => c :: extractCmdFuel cmd fuel rest
    else
      c :: extractCmdFuel cmd fuel rest

/-- Run one font-command extraction pass. -/
def extractCmd (cmd s : List Char) : List Char :=
  extractCmdFuel cmd s.length s

/-- The `\begin` / `\end` bases of `_ENV_PATTERNS`, in source order; each
gives one `re.sub` pass removing the base followed by an optional `*` and
a closing brace. -/
def envBases : List (List Char) :=
  [ "\\begin\x7bequation".toList, "\\end\x7bequation".toList
  , "\\begin\x7balign".toList,    "\\end\x7balign".toList
  , "\\begin\x7bgather".toList,   "\\end\x7bgather".toList
  , "\\begin\x7bmultline".toList, "\\end\x7bmultline".toList
  , "\\begin\x7beqnarray".toList, "\\end\x7beqnarray".toList ]

/-- Phase 1 (`strip_environments`): remove math environment wrappers, one
`re.sub` pass per pattern, in source order. -/
def strip_environments (s : List Char) : List Char :=
  replaceAll "$".toList []
    (replaceAll "$$".toList []
      (replaceAll "\\]".toList []
        (replaceAll "\\[".toList []
          (envBases.foldl (fun acc base => removeEnv base acc) s))))

/-- The literal patterns of `_STRIP_COMMANDS` (without the two
braced-argument patterns), in source order. -/
def stripCommands : List (List Char) :=
  [ "\\left".toList, "\\right".toList
  , "\\displaystyle".toList, "\\textstyle".toList, "\\scriptstyle".toList
  , "\\Big".toList, "\\big".toList, "\\bigg".toList, "\\Bigg".toList
  , "\\,".toList, "\\;".toList, "\\:".toList, "\\!".toList
  , "\\quad".toList, "\\qquad".toList
  , "&".toList, "\\\\".toList, "\\nonumber".toList ]

/-- The font-command openers of `_FONT_COMMANDS`, in source order. -/
def fontCommands : List (List Char) :=
  [ "\\mathrm\x7b".toList, "\\mathbf\x7b".toList, "\\mathit\x7b".toList
  , "\\text\x7b".toList, "\\textit\x7b".toList
  , "\\boldsymbol\x7b".toList, "\\operatorname\x7b".toList ]

/-- Phase 2 (`remove_typographical`): strip typographical commands and
extract font command contents. -/
def remove_typographical (s : List Char) : List Char :=
  fontCommands.foldl (fun acc cmd => extractCmd cmd acc)
    (removeCmdBrace "\\tag\x7b".toList
      (removeCmdBrace "\\label\x7b".toList
        (stripCommands.foldl (fun acc pat => replaceAll pat [] acc) s)))

/-- The `_SYNONYMS` table, in source (insertion) order.  The source writes
the keys and values as raw strings such as `r"\\dfrac"`, i.e. with TWO
literal backslashes, and applies them with the non-regex `str.replace`;
the embedding keeps the double backslashes. -/
def synonymPairs : List (List Char × List Char) :=
  [ ("\\\\dfrac".toList, "\\\\frac".toList)
  , ("\\\\tfrac".toList, "\\\\frac".toList)
  , ("\\\\ge".toList,    "\\\\geq".toList)
  , ("\\\\le".toList,    "\\\\leq".toList)
  , ("\\\\ne".toList,    "\\\\neq".toList)
  , ("\\\\to".toList,    "\\\\rightarrow".toList)
  , ("\\\\gets".toList,  "\\\\leftarrow".toList)
  , ("\\\\land".toList,  "\\\\wedge".toList)
  , ("\\\\lor".toList,   "\\\\vee".toList)
  , ("\\\\lnot".toList,  "\\\\neg".toList)
  , ("\\\\cdot".toList,  "*".toList)
  , ("\\\\times".toList, "*".toList) ]

/-- Phase 3 (`normalize_synonyms`): apply the synonym map with
`str.replace`, in insertion order. -/
def normalize_synonyms (s : List Char) : List Char :=
  synonymPairs.foldl (fun acc p => replaceAll p.1 p.2 acc) s

/-- One fuelled step of whitespace-run collapsing: the semantics of
`re.sub(r"\s+", " ", s)`. -/
def collapseWsFuel : Nat → List Char → List Char
  | 0, s => s
  | _ + 1, [] => []
  | fuel + 1, c :: rest =>
    if isPySpace c then
      ' ' :: collapseWsFuel fuel (rest.dropWhile isPySpace)
    else
      c :: collapseWsFuel fuel rest

/-- Collapse every whitespace run to a single space. -/
def collapseWs (s : List Char) : List Char :=
  collapseWsFuel s.length s

/-- Python `str.strip()` on ASCII text. -/
def stripWs (s : List Char) : List Char :=
  ((s.dropWhile isPySpace).reverse.dropWhile isPySpace).reverse

/-- The outer-brace step of phase 4: when the collapsed, trimmed string
starts with `\x7b` and ends with `\x7d` and its interior has equal counts
of the two braces, drop the outer pair. -/
def cwBrace (result : List Char) : List Char :=
  if result.head? = some '{' ∧ result.getLast? = some '}' then
    let inner := (result.drop 1).dropLast
    if inner.count '{' = inner.count '}' then inner else result
  else
    result

/-- Phase 4 (`clean_whitespace`): collapse whitespace, trim, and strip one
redundant pair of outer braces when the inner string has balanced brace
counts. -/
def clean_whitespace (s : List Char) : List Char :=
  cwBrace (stripWs (collapseWs s))

/-- Full 4-phase pipeline (`preprocess_latex`) on character lists. -/
def preprocessChars (s : List Char) : List Char :=
  clean_whitespace (normalize_synonyms (remove_typographical (strip_environments s)))

/-- Full 4-phase pipeline (`preprocess_latex`) on strings. -/
def preprocess_latex (s : String) : String :=
  ⟨preprocessChars s.toList⟩

/-- A character that none of the rewrite passes of the preprocessor can
react to: not a backslash, dollar, ampersand, or brace. -/
def plainChar (c : Char) : Bool :=
  !(c = '\\' || c = '$' || c = '&' || c = '{' || c = '}')

/-! ## Engine data model (`src/cas_service/engines/base.py`) -/

/-- Engine capability markers (`Capability`). -/
inductive Capability
  | validate
  | compute
  | remote
deriving DecidableEq

/-- Result from a single CAS engine validation (`EngineResult`); also the
shape of the per-engine dict built by `_validate_one`. -/
structure EngineResult where
  engine : String
  success : Bool
  is_valid : Option Bool
  simplified : Option String
  original_parsed : Option String
  error : Option String
  time_ms : Nat
deriving DecidableEq

/-- Structured compute request (`ComputeRequest`); `inputs` keeps the dict's
insertion order. -/
structure ComputeRequest where
  engine : String
  task_type : String
  template : String
  inputs : List (String × String)
  timeout_s : Nat
deriving DecidableEq

/-- Result from a CAS compute operation (`ComputeResult`). -/
structure ComputeResult where
  engine : String
  success : Bool
  time_ms : Nat
  result : Option (List (String × String))
  stdout : String
  stderr : String
  error : Option String
  error_code : Option String
deriving DecidableEq

/-! ## Engine selection for validate (`src/cas_service/main.py`)

`ENGINES` is an insertion-ordered dict from engine name to engine object;
only the capability list and the `is_available()` answer of each engine
matter to the selection logic, so an entry is modelled by those two. -/

/-- The slice of an engine object that engine selection reads. -/
structure EngineEntry where
  capabilities : List Capability
  available : Bool
deriving DecidableEq

/-- Engine selection of `CASHandler._handle_validate`: an explicit
`engines` list is used as given; `consensus=true` selects every registered
engine that is available and has the validate capability; otherwise the
default engine when one exists, and the whole registry's key list when
`_default_engine` is the empty string. -/
def selectEngines (explicitEngines : Option (List String)) (consensus : Bool)
    (engines : List (String × EngineEntry)) (defaultEngine : String) :
    List String :=
  match explicitEngines with
  | some l => l
  | none =>
    if consensus then
      (engines.filter fun e =>
        e.2.capabilities.contains Capability.validate && e.2.available).map Prod.fst
    else
      if defaultEngine ≠ "" then [defaultEngine] else engines.map Prod.fst

/-- Default-engine computation of `_init_engines`: the environment override
when present, registered and available; else the first of `sage`, `sympy`
that is registered and available; else the first registered engine with
the validate capability that is available; else the empty string. -/
def computeDefaultEngine (envDefault : String)
    (engines : List (String × EngineEntry)) : String :=
  if envDefault ≠ "" && (((engines.lookup envDefault).map EngineEntry.available).getD false) then
    envDefault
  else
    match ["sage", "sympy"].find? fun c =>
        ((engines.lookup c).map EngineEntry.available).getD false with
    | some c => c
    | none =>
      match engines.find? fun e =>
          e.2.capabilities.contains Capability.validate && e.2.available with
      | some e => e.1
      | none => ""

/-! ## Parallel validate (`src/cas_service/main.py`)

The behaviour of `ENGINES[name].validate(preprocessed)` is a parameter
`vf : String → String → Except String EngineResult`: `.ok r` is a normal
return, `.error exc` a raised exception with text `exc`.  The
nondeterministic completion order of `as_completed` is a parameter
`order`, a permutation of the submitted engine names. -/

/-- `_validate_one`: call the engine's validate, converting a raised
exception into a `success=false` slot carrying the exception text and
`time_ms=0`. -/
def validateOne (vf : String → String → Except String EngineResult)
    (engineName preprocessed : String) : EngineResult :=
  match vf engineName preprocessed with
  | .ok r => ⟨r.engine, r.success, r.is_valid, r.simplified, r.original_parsed, r.error, r.time_ms⟩
  | .error exc => ⟨engineName, false, none, none, none, some exc, 0⟩

/-- One `result_map[name] = ...` store. -/
def resultMapInsert (m : String → Option EngineResult) (name : String)
    (r : EngineResult) : String → Option EngineResult :=
  fun k => if k = name then some r else m k

/-- The `result_map` after consuming every future in completion order.
(`future.result()` never raises here because `_validate_one` already
catches all exceptions, so each future stores `validateOne` of its name.) -/
def buildResultMap (vf : String → String → Except String EngineResult)
    (preprocessed : String) (order : List String) :
    String → Option EngineResult :=
  order.foldl
    (fun m name => resultMapInsert m name (validateOne vf name preprocessed))
    (fun _ => none)

/-- `_validate_parallel`: one engine (or no pool) runs sequentially;
otherwise all engines are submitted, the result map is filled in
completion order, and the final list is assembled in selection order.
A missing key would be a Python `KeyError`; it cannot occur when `order`
enumerates the submitted names. -/
def validateParallel (vf : String → String → Except String EngineResult)
    (pool : Bool) (engineNames : List String) (preprocessed : String)
    (order : List String) : List EngineResult :=
  if engineNames.length ≤ 1 || !pool then
    engineNames.map fun n => validateOne vf n preprocessed
  else
    engineNames.map fun n =>
      match buildResultMap vf preprocessed order n with
      | some r => r
      | none => ⟨n, false, none, none, none, some "KeyError", 0⟩

/-! ## Subprocess executor (`src/cas_service/runtime/executor.py`) -/

/-- Lifecycle states for a compute job (`JobStatus`). -/
inductive JobStatus
  | pending
  | running
  | completed
  | failed
  | cancelled
  | timeout
deriving DecidableEq

/-- Result from a subprocess execution (`ExecResult`). -/
structure ExecResult where
  returncode : Int
  stdout : String
  stderr : String
  time_ms : Nat
  timed_out : Bool
  truncated : Bool
deriving DecidableEq

/-- What `subprocess.run` did for one invocation: normal completion with
raw captured streams and exit code, `TimeoutExpired`, or
`FileNotFoundError`. -/
inductive ProcBehavior
  | completedProc (stdout stderr : String) (returncode : Int)
  | timedOut
  | notFound (cmdHead : String)
deriving DecidableEq

/-- Python `x or default` for the optional numeric arguments of `run`
(`None` and `0` are both falsy). -/
def orDefault (x : Option Nat) (dflt : Nat) : Nat :=
  match x with
  | none => dflt
  | some v => if v = 0 then dflt else v

/-- Truncate a string to `n` characters, the semantics of `s[:n]`. -/
def takeStr (n : Nat) (s : String) : String :=
  ⟨s.toList.take n⟩

/-- `SubprocessExecutor` construction parameters. -/
structure ExecutorConfig where
  default_timeout : Nat
  max_output : Nat
  max_jobs : Nat
deriving DecidableEq

/-- `SubprocessExecutor.run`: cap both streams on normal completion and
set `truncated` when a raw stream exceeded the cap; on timeout return the
sentinel code, empty stdout and a diagnostic stderr; likewise for a
missing command.  `elapsed` stands for the measured wall-clock
milliseconds. -/
def runExec (cfg : ExecutorConfig) (behavior : ProcBehavior)
    (timeout_s max_output : Option Nat) (elapsed : Nat) : ExecResult :=
  let timeout := orDefault timeout_s cfg.default_timeout
  let cap := orDefault max_output cfg.max_output
  match behavior with
  | .completedProc out err rc =>
    ⟨rc, takeStr cap out, takeStr cap err, elapsed, false,
      decide (cap < out.length) || decide (cap < err.length)⟩
  | .timedOut =>
    ⟨-1, "", "Process timed out after " ++ toString timeout ++ "s", elapsed, true, false⟩
  | .notFound cmdHead =>
    ⟨-1, "", "Command not found: " ++ cmdHead, elapsed, false, false⟩

/-- Tracked compute job (`Job`). -/
structure Job where
  id : String
  command : List String
  status : JobStatus
  result : Option ExecResult
  input_data : Option String
  created_at : Nat
  started_at : Option Nat
  completed_at : Option Nat
  timeout_s : Nat
  max_output : Nat
deriving DecidableEq

/-- A job state the eviction pass may remove. -/
def isTerminal (st : JobStatus) : Bool :=
  match st with
  | .completed | .failed | .cancelled | .timeout => true
  | _ => false

/-- The `completed[: len(self._jobs) - self.max_jobs + 1]` slice of
`_evict_old_jobs`: the terminal jobs, stably sorted by creation time,
truncated to the number of deletions needed to restore the bound. -/
def evictDeleteSet (max_jobs : Nat) (jobs : List Job) : List Job :=
  ((jobs.filter fun j => isTerminal j.status).insertionSort
      fun a b => a.created_at ≤ b.created_at).take (jobs.length - max_jobs + 1)

/-- `_evict_old_jobs`: when the table has reached `max_jobs` entries,
delete (by id) the oldest terminal jobs needed to restore the bound; a
shorter table is left untouched.  The table is the dict's
insertion-ordered entry list. -/
def evictOldJobs (max_jobs : Nat) (jobs : List Job) : List Job :=
  if jobs.length < max_jobs then jobs
  else jobs.filter fun j => !((evictDeleteSet max_jobs jobs).any fun d => d.id = j.id)

/-! ## Job cancellation state machine (`src/cas_service/runtime/executor.py`)

`cancel` and the two locked sections of `_execute_job` are serialized by
the executor's mutex, so a job's history is a sequence of three kinds of
atomic events.  `phase` tracks the worker thread's progress and `spawned`
records whether this job's subprocess was ever started. -/

/-- Progress of the job's worker thread. -/
inductive WorkerPhase
  | notStarted
  | exited
  | launched
  | finished
deriving DecidableEq

/-- The per-job state visible across the executor's lock. -/
structure JobState where
  status : JobStatus
  phase : WorkerPhase
  spawned : Bool
deriving DecidableEq

/-- The three serialized events that touch a job. -/
inductive ExecEvent
  | cancelAttempt
  | workerBegin
  | workerFinish (r : ExecResult)
deriving DecidableEq

/-- Whether `cancel(job_id)` returns `True` in state `s` (the job exists
and is pending). -/
def cancelOk (s : JobState) : Bool :=
  s.status = JobStatus.pending

/-- One serialized step: `cancel` flips a pending job to cancelled and is
otherwise a no-op; the worker's first locked section returns without
spawning when the job was cancelled, and otherwise marks it running and
spawns; the worker's second locked section records the outcome's terminal
state. -/
def stepJob (s : JobState) : ExecEvent → JobState
  | .cancelAttempt =>
    if s.status = JobStatus.pending then ⟨JobStatus.cancelled, s.phase, s.spawned⟩ else s
  | .workerBegin =>
    if s.phase ≠ WorkerPhase.notStarted then s
    else if s.status = JobStatus.cancelled then ⟨s.status, WorkerPhase.exited, s.spawned⟩
    else ⟨JobStatus.running, WorkerPhase.launched, true⟩
  | .workerFinish r =>
    if s.phase = WorkerPhase.launched then
      ⟨(if r.timed_out then JobStatus.timeout
        else if r.returncode = 0 then JobStatus.completed
        else JobStatus.failed),
        WorkerPhase.finished, s.spawned⟩
    else s

/-- Run a sequence of serialized events. -/
def runJob (s : JobState) (events : List ExecEvent) : JobState :=
  events.foldl stepJob s

/-- State of a freshly submitted job. -/
def initJobState : JobState :=
  ⟨JobStatus.pending, WorkerPhase.notStarted, false⟩

/-! ## MATLAB engine (`src/cas_service/engines/matlab_engine.py`) -/

/-- The `X\s*\(` alternatives of `_BLOCKED_PATTERNS`, in pattern order. -/
def matlabBlockedCall : List String :=
  ["system", "unix", "dos", "perl", "python", "java", "eval", "feval", "evalc", "delete"]

/-- The plain-substring alternatives of `_BLOCKED_PATTERNS`, in pattern
order. -/
def matlabBlockedPlain : List String :=
  ["urlread", "webread", "websave", "fopen", "fclose", "fwrite", "fread",
   "rmdir", "mkdir", "movefile", "copyfile", "setenv", "getenv", "!"]

/-- Match `\s*\(` at the head of a suffix. -/
def wsLParen : List Char → Bool
  | [] => false
  | c :: rest => if isPySpace c then wsLParen rest else c = '('

/-- Match one alternative at the head of a suffix: the literal word,
optionally followed by whitespace and an opening parenthesis. -/
def matchesAt (s w : List Char) (needParen : Bool) : Bool :=
  if w.isPrefixOf s then
    if needParen then wsLParen (s.drop w.length) else true
  else false

/-- `_BLOCKED_PATTERNS.search` over an already-lowercased string (the
regex is compiled with `re.IGNORECASE` and every pattern is lowercase). -/
def blockedSearch : List Char → Bool
  | [] => false
  | c :: rest =>
    (matlabBlockedCall.any fun w => matchesAt (c :: rest) w.toList true) ||
    (matlabBlockedPlain.any fun w => matchesAt (c :: rest) w.toList false) ||
    blockedSearch rest

/-- The MATLAB engine's `_validate_input`: reject empty or over-500-char
values, deny-list matches, and values containing NUL, LF or CR. -/
def matlab_validate_input (value : String) : Bool :=
  let chars := value.toList
  if chars.isEmpty || 500 < chars.length then false
  else if blockedSearch (chars.map Char.toLower) then false
  else if chars.any fun ch => ch = '\x00' || ch = '\n' || ch = '\x0d' then false
  else true

/-- `_matlab_single_quoted`: single-quoted MATLAB literal with embedded
quotes doubled. -/
def matlab_single_quoted (value : String) : String :=
  "'" ++ ⟨value.toList.foldr
    (fun c acc => if c = '\'' then '\'' :: '\'' :: acc else c :: acc) []⟩ ++ "'"

/-- One entry of the MATLAB `_TEMPLATES` table. -/
structure MatlabTemplate where
  required_inputs : List String
  optional_inputs : List String
deriving DecidableEq

/-- The MATLAB `_TEMPLATES` table, in source order. -/
def matlabTemplates : List (String × MatlabTemplate) :=
  [ ("evaluate", ⟨["expression"], []⟩)
  , ("simplify", ⟨["expression"], []⟩)
  , ("solve",    ⟨["equation"], ["variable"]⟩)
  , ("factor",   ⟨["expression"], []⟩) ]

/-- Dict read `inputs[k]` after the required-input check has passed. -/
def inputVal (inputs : List (String × String)) (k : String) : String :=
  (inputs.lookup k).getD ""

/-- `MatlabEngine._build_compute_code`: the generated MATLAB script for
each template.  Only the `evaluate` template quotes its input; the other
templates interpolate the raw value. -/
def matlabBuildComputeCode (template : String)
    (inputs : List (String × String)) : String :=
  let header := "syms x y z t real;\n"
  if template = "evaluate" then
    header ++ "expr = str2sym(" ++ matlab_single_quoted (inputVal inputs "expression")
      ++ ");\n" ++ "result = simplify(expr);\n"
      ++ "if isempty(symvar(result))\n" ++ "    result = vpa(result);\n" ++ "end\n"
      ++ "disp(['MATLAB_RESULT:', char(string(result))]);\n"
  else if template = "simplify" then
    header ++ "expr = " ++ inputVal inputs "expression" ++ ";\n"
      ++ "result = simplify(expr);\n"
      ++ "disp(['MATLAB_RESULT:', char(result)]);\n"
  else if template = "solve" then
    header ++ "expr = " ++ inputVal inputs "equation" ++ ";\n"
      ++ "result = solve(expr, " ++ ((inputs.lookup "variable").getD "x") ++ ");\n"
      ++ "disp(['MATLAB_RESULT:', char(result)]);\n"
  else if template = "factor" then
    header ++ "expr = " ++ inputVal inputs "expression" ++ ";\n"
      ++ "result = factor(expr);\n"
      ++ "disp(['MATLAB_RESULT:', char(result)]);\n"
  else
    "disp('MATLAB_ERROR:Unknown template: " ++ template ++ "');\n"

/-- The subprocess invocation `_run_matlab` performs: the generated script
and the wall-clock timeout handed to `subprocess.run` — which is
`self.timeout`, the engine's configured timeout. -/
structure MatlabInvocation where
  code : String
  timeout : Nat
deriving DecidableEq

/-- `MatlabEngine.compute` up to the subprocess call: the availability,
template, required-input and per-value guard checks in source order; a
request that passes them all produces the `_run_matlab` invocation, whose
timeout is the engine's `self.timeout` whatever `request.timeout_s`
says. -/
def matlabCompute (available : Bool) (engineTimeout : Nat)
    (req : ComputeRequest) (elapsed : Nat) : ComputeResult ⊕ MatlabInvocation :=
  if !available then
    .inl ⟨"matlab", false, elapsed, none, "", "",
      some "MATLAB binary not found", some "ENGINE_UNAVAILABLE"⟩
  else
    match matlabTemplates.lookup req.template with
    | none =>
      .inl ⟨"matlab", false, elapsed, none, "", "",
        some ("Unknown template: " ++ req.template), some "UNKNOWN_TEMPLATE"⟩
    | some tmpl =>
      let missing := tmpl.required_inputs.filter fun k =>
        !(req.inputs.any fun p => p.1 = k)
      if missing ≠ [] then
        .inl ⟨"matlab", false, elapsed, none, "", "",
          some ("Missing required inputs: " ++ String.intercalate ", " missing),
          some "MISSING_INPUT"⟩
      else
        match req.inputs.find? fun p => !matlab_validate_input p.2 with
        | some p =>
          .inl ⟨"matlab", false, elapsed, none, "", "",
            some ("Invalid input value for '" ++ p.1 ++ "'"), some "INVALID_INPUT"⟩
        | none =>
          .inr ⟨matlabBuildComputeCode req.template req.inputs, engineTimeout⟩

/-! ## WolframAlpha engine (`src/cas_service/engines/wolframalpha_engine.py`) -/

/-- `WolframAlphaEngine.validate`: a fixed failure result, built without
any network interaction (the method body only constructs the record). -/
def wolframalphaValidate (_latex : String) : EngineResult :=
  ⟨"wolframalpha", false, none, none, none,
    some "WolframAlpha is not part of the validation consensus", 0⟩

/-- `WolframAlphaEngine.capabilities`. -/
def wolframalphaCapabilities : List Capability :=
  [Capability.compute, Capability.remote]

/-! ## Concrete instances used by witnesses and counterexamples -/

/-- Registry with one available engine, for the C2 witness. -/
def regC2 : List (String × EngineEntry) :=
  [("sympy", ⟨[Capability.validate, Capability.compute], true⟩)]

/-- Registry with two registered but unavailable engines: no default
engine exists, for the C2 counterexample. -/
def regC2x : List (String × EngineEntry) :=
  [ ("sympy",  ⟨[Capability.validate, Capability.compute], false⟩)
  , ("matlab", ⟨[Capability.validate, Capability.compute], false⟩) ]

/-- A pending job entry, for the C6 witness and counterexample. -/
def pendJobC6 (i : String) (t : Nat) : Job :=
  ⟨i, ["sleep", "9"], JobStatus.pending, none, none, t, none, none, 30, 65536⟩

/-- A table of two pending jobs, for the C6 witness and counterexample. -/
def tblC6 : List Job :=
  [pendJobC6 "a" 0, pendJobC6 "b" 1]

/-- Engine-validate behaviour where every engine returns a result carrying
its own name, for the C7 witness. -/
def vfC7 : String → String → Except String EngineResult :=
  fun n _ => Except.ok ⟨n, true, some true, none, none, none, 5⟩

/-- Engine-validate behaviour where engine `bad` raises and every other
engine returns normally, for the C8 witness. -/
def vfC8 : String → String → Except String EngineResult :=
  fun n _ =>
    if n = "bad" then Except.error "boom"
    else Except.ok ⟨n, true, none, none, none, none, 7⟩

/-! ## Preprocessor lemmas

Each rewrite pass of phases 1-3 only fires at an occurrence of its
pattern's first character, so a string avoiding backslash, dollar and
ampersand passes through phases 1-3 unchanged. -/

theorem isPrefixOf_cons_ne {a c : Char} (as s : List Char) (h : a ≠ c) :
    (a :: as).isPrefixOf (c :: s) = false := by
  simp [List.isPrefixOf, h]

theorem replaceAllFuel_eq_self {a : Char} (as rep : List Char) :
    ∀ (fuel : Nat) (s : List Char), a ∉ s → replaceAllFuel (a :: as) rep fuel s = s
  | 0, _, _ => rfl
  | _ + 1, [], _ => rfl
  | fuel + 1, c :: rest, h => by
    have hac : a ≠ c := fun e => h (e ▸ List.mem_cons_self c rest)
    have hrest : a ∉ rest := fun e => h (List.mem_cons_of_mem c e)
    simp only [replaceAllFuel]
    rw [if_neg (fun hc => by simp [isPrefixOf_cons_ne as rest hac] at hc)]
    rw [replaceAllFuel_eq_self as rep fuel rest hrest]

theorem replaceAll_eq_self (pat rep s : List Char) (a : Char)
    (hh : pat.head? = some a) (h : a ∉ s) : replaceAll pat rep s = s := by
  cases pat with
  | nil => simp at hh
  | cons b bs =>
    have hb : b = a := by simpa using hh
    subst hb
    exact replaceAllFuel_eq_self bs rep s.length s h

theorem removeEnvFuel_eq_self {a : Char} (as : List Char) :
    ∀ (fuel : Nat) (s : List Char), a ∉ s → removeEnvFuel (a :: as) fuel s = s
  | 0, _, _ => rfl
  | _ + 1, [], _ => rfl
  | fuel + 1, c :: rest, h => by
    have hac : a ≠ c := fun e => h (e ▸ List.mem_cons_self c rest)
    have hrest : a ∉ rest := fun e => h (List.mem_cons_of_mem c e)
    simp only [removeEnvFuel, List.cons_append]
    rw [if_neg (fun hc => by simp [isPrefixOf_cons_ne (as ++ ['*', '}']) rest hac] at hc)]
    rw [if_neg (fun hc => by simp [isPrefixOf_cons_ne (as ++ ['}']) rest hac] at hc)]
    rw [removeEnvFuel_eq_self as fuel rest hrest]

theorem removeEnv_eq_self (base s : List Char) (a : Char)
    (hh : base.head? = some a) (h : a ∉ s) : removeEnv base s = s := by
  cases base with
  | nil => simp at hh
  | cons b bs =>
    have hb : b = a := by simpa using hh
    subst hb
    exact removeEnvFuel_eq_self bs s.length s h

theorem removeCmdBraceFuel_eq_self {a : Char} (as : List Char) :
    ∀ (fuel : Nat) (s : List Char), a ∉ s → removeCmdBraceFuel (a :: as) fuel s = s
  | 0, _, _ => rfl
  | _ + 1, [], _ => rfl
  | fuel + 1, c :: rest, h => by
    have hac : a ≠ c := fun e => h (e ▸ List.mem_cons_self c rest)
    have hrest : a ∉ rest := fun e => h (List.mem_cons_of_mem c e)
    simp only [removeCmdBraceFuel]
    rw [if_neg (fun hc => by simp [isPrefixOf_cons_ne as rest hac] at hc)]
    rw [removeCmdBraceFuel_eq_self as fuel rest hrest]

theorem removeCmdBrace_eq_self (cmd s : List Char) (a : Char)
    (hh : cmd.head? = some a) (h : a ∉ s) : removeCmdBrace cmd s = s := by
  cases cmd with
  | nil => simp at hh
  | cons b bs =>
    have hb : b = a := by simpa using hh
    subst hb
    exact removeCmdBraceFuel_eq_self bs s.length s h

theorem extractCmdFuel_eq_self {a : Char} (as : List Char) :
    ∀ (fuel : Nat) (s : List Char), a ∉ s → extractCmdFuel (a :: as) fuel s = s
  | 0, _, _ => rfl
  | _ + 1, [], _ => rfl
  | fuel + 1, c :: rest, h => by
    have hac : a ≠ c := fun e => h (e ▸ List.mem_cons_self c rest)
    have hrest : a ∉ rest := fun e => h (List.mem_cons_of_mem c e)
    simp only [extractCmdFuel]
    rw [if_neg (fun hc => by simp [isPrefixOf_cons_ne as rest hac] at hc)]
    rw [extractCmdFuel_eq_self as fuel rest hrest]

theorem extractCmd_eq_self (cmd s : List Char) (a : Char)
    (hh : cmd.head? = some a) (h : a ∉ s) : extractCmd cmd s = s := by
  cases cmd with
  | nil => simp at hh
  | cons b bs =>
    have hb : b = a := by simpa using hh
    subst hb
    exact extractCmdFuel_eq_self bs s.length s h

theorem foldl_eq_self {β : Type} (f : List Char → β → List Char) (l : List β)
    (s : List Char) (h : ∀ b ∈ l, f s b = s) : l.foldl f s = s := by
  induction l with
  | nil => rfl
  | cons b bs ih =>
    simp only [List.foldl_cons]
    rw [h b (List.mem_cons_self _ _)]
    exact ih fun x hx => h x (List.mem_cons_of_mem _ hx)

theorem envBases_head : ∀ base ∈ envBases, base.head? = some '\\' := by decide

theorem stripCommands_head :
    ∀ p ∈ stripCommands, p.head? = some '\\' ∨ p.head? = some '&' := by decide

theorem fontCommands_head : ∀ c ∈ fontCommands, c.head? = some '\\' := by decide

theorem synonymPairs_head : ∀ p ∈ synonymPairs, p.1.head? = some '\\' := by decide

theorem strip_environments_eq_self (s : List Char)
    (hb : '\\' ∉ s) (hd : '$' ∉ s) : strip_environments s = s := by
  simp only [strip_environments]
  rw [foldl_eq_self _ _ _ fun base hm => removeEnv_eq_self base s '\\' (envBases_head base hm) hb]
  rw [replaceAll_eq_self ("\\[".toList) [] s '\\' rfl hb]
  rw [replaceAll_eq_self ("\\]".toList) [] s '\\' rfl hb]
  rw [replaceAll_eq_self ("$$".toList) [] s '$' rfl hd]
  rw [replaceAll_eq_self ("$".toList) [] s '$' rfl hd]

theorem remove_typographical_eq_self (s : List Char)
    (hb : '\\' ∉ s) (ha : '&' ∉ s) : remove_typographical s = s := by
  simp only [remove_typographical]
  rw [foldl_eq_self _ _ _ fun p hp =>
    (stripCommands_head p hp).elim
      (fun h1 => replaceAll_eq_self p [] s '\\' h1 hb)
      (fun h2 => replaceAll_eq_self p [] s '&' h2 ha)]
  rw [removeCmdBrace_eq_self ("\\label\x7b".toList) s '\\' rfl hb]
  rw [removeCmdBrace_eq_self ("\\tag\x7b".toList) s '\\' rfl hb]
  rw [foldl_eq_self _ _ _ fun c hc => extractCmd_eq_self c s '\\' (fontCommands_head c hc) hb]

theorem normalize_synonyms_eq_self (s : List Char) (hb : '\\' ∉ s) :
    normalize_synonyms s = s := by
  simp only [normalize_synonyms]
  exact foldl_eq_self _ _ _ fun p hp =>
    replaceAll_eq_self p.1 p.2 s '\\' (synonymPairs_head p hp) hb

/-! Whitespace phase: `collapseWs` produces a string whose whitespace is
normalized (every whitespace character is a plain space and no two are
adjacent), such strings are fixed by `collapseWs`, and `stripWs` is
idempotent. -/

/-- Two adjacent characters are acceptable when they are not both
whitespace. -/
def spacePair (a b : Char) : Prop := ¬(isPySpace a = true ∧ isPySpace b = true)

/-- Normalized whitespace: every whitespace character is a plain space and
no two adjacent characters are both whitespace. -/
def NormWs (l : List Char) : Prop :=
  (∀ c ∈ l, isPySpace c = true → c = ' ') ∧ l.Chain' spacePair

theorem collapseWsFuel_nil (fuel : Nat) : collapseWsFuel fuel [] = [] := by
  cases fuel <;> rfl

theorem head?_collapseWsFuel (fuel : Nat) (t : List Char) (d : Char)
    (hh : t.head? = some d) (hd : isPySpace d = false) :
    (collapseWsFuel fuel t).head? = some d := by
  cases t with
  | nil => simp at hh
  | cons c rest =>
    have hc : c = d := by simpa using hh
    subst hc
    cases fuel with
    | zero => rfl
    | succ fuel => simp [collapseWsFuel, hd]

theorem mem_of_mem_dropWhile {c : Char} {p : Char → Bool} {l : List Char}
    (h : c ∈ l.dropWhile p) : c ∈ l :=
  (List.dropWhile_suffix p).subset h

theorem mem_collapseWsFuel {c : Char} :
    ∀ (fuel : Nat) (s : List Char), c ∈ collapseWsFuel fuel s → c ∈ s ∨ c = ' '
  | 0, _, h => Or.inl h
  | _ + 1, [], h => by simp [collapseWsFuel] at h
  | fuel + 1, d :: rest, h => by
    by_cases hd : isPySpace d = true
    · simp only [collapseWsFuel, hd, if_true] at h
      rcases List.mem_cons.mp h with h1 | h2
      · exact Or.inr h1
      · rcases mem_collapseWsFuel fuel _ h2 with h3 | h3
        · exact Or.inl (List.mem_cons_of_mem d (mem_of_mem_dropWhile h3))
        · exact Or.inr h3
    · simp only [collapseWsFuel, hd, if_false] at h
      rcases List.mem_cons.mp h with h1 | h2
      · exact Or.inl (h1 ▸ List.mem_cons_self d rest)
      · rcases mem_collapseWsFuel fuel rest h2 with h3 | h3
        · exact Or.inl (List.mem_cons_of_mem d h3)
        · exact Or.inr h3

theorem mem_collapseWs {c : Char} {s : List Char} (h : c ∈ collapseWs s) :
    c ∈ s ∨ c = ' ' :=
  mem_collapseWsFuel s.length s h

theorem mem_stripWs {c : Char} {s : List Char} (h : c ∈ stripWs s) : c ∈ s := by
  simp only [stripWs] at h
  rw [List.mem_reverse] at h
  have h1 := mem_of_mem_dropWhile h
  rw [List.mem_reverse] at h1
  exact mem_of_mem_dropWhile h1

theorem normWs_collapseWsFuel :
    ∀ (fuel : Nat) (s : List Char), s.length ≤ fuel → NormWs (collapseWsFuel fuel s)
  | 0, s, h => by
    have : s = [] := List.length_eq_zero.mp (Nat.le_zero.mp h)
    subst this
    rw [collapseWsFuel_nil]
    exact ⟨fun c hc => absurd hc (List.not_mem_nil c), List.chain'_nil⟩
  | fuel + 1, [], _ => by
    rw [collapseWsFuel_nil]
    exact ⟨fun c hc => absurd hc (List.not_mem_nil c), List.chain'_nil⟩
  | fuel + 1, c :: rest, h => by
    have hlen : rest.length ≤ fuel := Nat.le_of_succ_le_succ (by simpa using h)
    by_cases hc : isPySpace c = true
    · have hout : collapseWsFuel (fuel + 1) (c :: rest) =
          ' ' :: collapseWsFuel fuel (rest.dropWhile isPySpace) := by
        simp [collapseWsFuel, hc]
      rw [hout]
      have hdlen : (rest.dropWhile isPySpace).length ≤ fuel :=
        le_trans (List.dropWhile_suffix isPySpace).sublist.length_le hlen
      obtain ⟨ihm, ihc⟩ := normWs_collapseWsFuel fuel (rest.dropWhile isPySpace) hdlen
      refine ⟨?_, ?_⟩
      · intro d hd _
        rcases List.mem_cons.mp hd with h1 | h2
        · exact h1
        · exact ihm d h2 (by assumption)
      · rw [List.chain'_cons']
        refine ⟨?_, ihc⟩
        intro y hy
        rintro ⟨_, hys⟩
        cases hdw : (rest.dropWhile isPySpace).head? with
        | none =>
          have hnil : rest.dropWhile isPySpace = [] := List.head?_eq_none_iff.mp hdw
          rw [hnil, collapseWsFuel_nil] at hy
          simp at hy
        | some d =>
          have hhd : isPySpace d = false := by
            have hr := List.head?_dropWhile_not isPySpace rest
            rw [hdw] at hr
            exact hr
          rw [head?_collapseWsFuel fuel _ d hdw hhd] at hy
          have hyd : d = y := by simpa using hy
          subst hyd
          rw [hys] at hhd
          exact absurd hhd (by simp)
    · have hc' : isPySpace c = false := by simpa using hc
      have hout : collapseWsFuel (fuel + 1) (c :: rest) =
          c :: collapseWsFuel fuel rest := by
        simp [collapseWsFuel, hc']
      rw [hout]
      obtain ⟨ihm, ihc⟩ := normWs_collapseWsFuel fuel rest hlen
      refine ⟨?_, ?_⟩
      · intro d hd hds
        rcases List.mem_cons.mp hd with h1 | h2
        · exact absurd (h1 ▸ hds) (by simp [hc])
        · exact ihm d h2 hds
      · rw [List.chain'_cons']
        exact ⟨fun y _ h => hc h.1, ihc⟩

theorem normWs_collapseWs (s : List Char) : NormWs (collapseWs s) :=
  normWs_collapseWsFuel s.length s le_rfl

theorem dropWhile_eq_self_of_head (l : List Char)
    (h : ∀ c, l.head? = some c → isPySpace c = false) :
    l.dropWhile isPySpace = l := by
  cases l with
  | nil => rfl
  | cons c rest =>
    rw [List.dropWhile_cons, if_neg]
    simp [h c rfl]

theorem collapseWsFuel_eq_self :
    ∀ (fuel : Nat) (t : List Char), NormWs t → collapseWsFuel fuel t = t
  | 0, _, _ => rfl
  | _ + 1, [], _ => rfl
  | fuel + 1, c :: rest, h => by
    obtain ⟨hm, hch⟩ := h
    by_cases hsp : isPySpace c = true
    · have hcsp : c = ' ' := hm c (List.mem_cons_self c rest) hsp
      have hdrop : rest.dropWhile isPySpace = rest := by
        apply dropWhile_eq_self_of_head
        intro y hy
        cases rest with
        | nil => simp at hy
        | cons z r =>
          have hz : z = y := by simpa using hy
          subst hz
          have hpair : spacePair c z := (List.chain'_cons.mp hch).1
          by_contra hzz
          exact hpair ⟨hsp, by simpa using hzz⟩
      have hout : collapseWsFuel (fuel + 1) (c :: rest) =
          ' ' :: collapseWsFuel fuel (rest.dropWhile isPySpace) := by
        simp [collapseWsFuel, hsp]
      rw [hout, hdrop,
        collapseWsFuel_eq_self fuel rest
          ⟨fun d hd => hm d (List.mem_cons_of_mem _ hd), hch.tail⟩,
        hcsp]
    · have hsp' : isPySpace c = false := by simpa using hsp
      have hout : collapseWsFuel (fuel + 1) (c :: rest) =
          c :: collapseWsFuel fuel rest := by
        simp [collapseWsFuel, hsp']
      rw [hout,
        collapseWsFuel_eq_self fuel rest
          ⟨fun d hd => hm d (List.mem_cons_of_mem _ hd), hch.tail⟩]

theorem collapseWs_eq_self (t : List Char) (h : NormWs t) : collapseWs t = t :=
  collapseWsFuel_eq_self t.length t h

theorem normWs_dropWhile {l : List Char} (h : NormWs l) :
    NormWs (l.dropWhile isPySpace) :=
  ⟨fun c hc hs => h.1 c (mem_of_mem_dropWhile hc) hs,
   h.2.suffix (List.dropWhile_suffix _)⟩

theorem normWs_reverse {l : List Char} (h : NormWs l) : NormWs l.reverse := by
  refine ⟨fun c hc hs => h.1 c (List.mem_reverse.mp hc) hs, ?_⟩
  rw [List.chain'_reverse]
  exact h.2.imp fun a b hab hba => hab ⟨hba.2, hba.1⟩

theorem normWs_stripWs {l : List Char} (h : NormWs l) : NormWs (stripWs l) := by
  simp only [stripWs]
  exact normWs_reverse (normWs_dropWhile (normWs_reverse (normWs_dropWhile h)))

theorem getLast?_dropWhile (p : Char → Bool) :
    ∀ (l : List Char), l.dropWhile p ≠ [] → (l.dropWhile p).getLast? = l.getLast?
  | [], h => absurd rfl h
  | c :: rest, h => by
    by_cases hc : p c = true
    · rw [List.dropWhile_cons, if_pos hc] at h ⊢
      have hr : rest ≠ [] := by
        rintro rfl
        exact h rfl
      rw [getLast?_dropWhile p rest h]
      cases rest with
      | nil => exact absurd rfl hr
      | cons y r => rw [List.getLast?_cons_cons]
    · rw [List.dropWhile_cons, if_neg hc]

theorem stripWs_idem (t : List Char) : stripWs (stripWs t) = stripWs t := by
  by_cases hbnil : (t.dropWhile isPySpace).reverse.dropWhile isPySpace = []
  · have hz : stripWs t = [] := by simp [stripWs, hbnil]
    rw [hz]
    rfl
  · have hrev : (stripWs t).reverse = (t.dropWhile isPySpace).reverse.dropWhile isPySpace := by
      simp [stripWs]
    have hii : (stripWs t).reverse.dropWhile isPySpace = (stripWs t).reverse := by
      rw [hrev]
      exact List.dropWhile_idempotent _ _
    have hhead : (stripWs t).head? = (t.dropWhile isPySpace).head? := by
      rw [show stripWs t = ((t.dropWhile isPySpace).reverse.dropWhile isPySpace).reverse from rfl]
      rw [List.head?_reverse]
      rw [getLast?_dropWhile isPySpace (t.dropWhile isPySpace).reverse hbnil]
      exact List.getLast?_reverse _
    have hi : (stripWs t).dropWhile isPySpace = stripWs t := by
      apply dropWhile_eq_self_of_head
      intro c hcc
      rw [hhead] at hcc
      have hprop := List.head?_dropWhile_not isPySpace t
      rw [hcc] at hprop
      exact hprop
    rw [show stripWs (stripWs t) =
      (((stripWs t).dropWhile isPySpace).reverse.dropWhile isPySpace).reverse from rfl]
    rw [hi, hii, List.reverse_reverse]

theorem cwBrace_of_no_lbrace (l : List Char) (h : '{' ∉ l) : cwBrace l = l := by
  simp only [cwBrace]
  rw [if_neg]
  rintro ⟨hhead, _⟩
  exact h (List.mem_of_mem_head? (by rw [hhead]; exact rfl))

theorem toList_mk (l : List Char) : String.toList ⟨l⟩ = l := rfl

theorem preprocessChars_plain (l : List Char) (h : ∀ c ∈ l, plainChar c = true) :
    preprocessChars l = stripWs (collapseWs l) := by
  have hnotc : ∀ (x : Char), plainChar x = false → x ∉ l := by
    intro x hx hm
    rw [h x hm] at hx
    exact absurd hx (by decide)
  have hb : '\\' ∉ l := hnotc '\\' (by decide)
  have hd : '$' ∉ l := hnotc '$' (by decide)
  have ha : '&' ∉ l := hnotc '&' (by decide)
  have hlb : '{' ∉ l := hnotc '{' (by decide)
  have hlb2 : '{' ∉ stripWs (collapseWs l) := by
    intro hm
    rcases mem_collapseWs (mem_stripWs hm) with h1 | h1
    · exact hlb h1
    · exact absurd h1 (by decide)
  simp only [preprocessChars, clean_whitespace]
  rw [strip_environments_eq_self l hb hd]
  rw [remove_typographical_eq_self l hb ha]
  rw [normalize_synonyms_eq_self l hb]
  exact cwBrace_of_no_lbrace _ hlb2

/-- C1 (amended): the four-phase preprocessor `preprocess_latex` is
idempotent on every input that contains none of the characters its rewrite
passes react to (backslash, dollar, ampersand, and the two braces); on
such inputs a second application returns the first application's output
unchanged.  (On general inputs idempotence fails: the outer-brace
stripping of phase 4 peels one brace layer per application, see the
counterexample.) -/
theorem C1_preprocess_idempotent_plain (s : String)
    (h : ∀ c ∈ s.toList, plainChar c = true) :
    preprocess_latex (preprocess_latex s) = preprocess_latex s := by
  have h1 : preprocessChars s.toList = stripWs (collapseWs s.toList) :=
    preprocessChars_plain _ h
  have h2 : ∀ c ∈ stripWs (collapseWs s.toList), plainChar c = true := by
    intro c hc
    rcases mem_collapseWs (mem_stripWs hc) with hm | hm
    · exact h c hm
    · rw [hm]
      decide
  have key : preprocessChars (preprocessChars s.toList) = preprocessChars s.toList := by
    rw [h1, preprocessChars_plain _ h2]
    rw [collapseWs_eq_self _ (normWs_stripWs (normWs_collapseWs _))]
    exact stripWs_idem _
  simp only [preprocess_latex, toList_mk]
  exact congrArg (fun l => (⟨l⟩ : String)) key

set_option maxRecDepth 8192 in
/-- C1 witness: the amended idempotence theorem applied at the concrete
plain input `2 + 2`. -/
theorem C1_witness :
    (∀ c ∈ ("2 + 2" : String).toList, plainChar c = true) ∧
      preprocess_latex (preprocess_latex "2 + 2") = preprocess_latex "2 + 2" :=
  ⟨by decide, C1_preprocess_idempotent_plain "2 + 2" (by decide)⟩

set_option maxRecDepth 8192 in
/-- C1 counterexample: the claim `preprocess(preprocess(x)) = preprocess(x)`
for every `x` is false.  On `\x7b \x7bx\x7d \x7d` the first application
returns `\x20\x7bx\x7d\x20` (outer braces stripped, interior kept with its
surrounding spaces) and the second application strips the now-exposed
whitespace and the next brace layer, returning `x`. -/
theorem C1_counterexample :
    preprocess_latex (preprocess_latex "\x7b \x7bx\x7d \x7d") ≠
      preprocess_latex "\x7b \x7bx\x7d \x7d" := by
  decide


/-! ## Engine selection, executor, and engine theorems -/

/-- C10: for every input string, the WolframAlpha engine's `validate`
returns the one fixed record: `success = false`, no `is_valid`, the fixed
error message, and `time_ms = 0`; the embedding is a pure constant
function — the method body performs no network interaction — and even
when the engine is selected explicitly the dispatcher slot built from it
has `success = false`, so validation through this engine can never
succeed. -/
theorem C10_wolframalpha_validate_fixed (latex : String) :
    wolframalphaValidate latex =
      ⟨"wolframalpha", false, none, none, none,
        some "WolframAlpha is not part of the validation consensus", 0⟩ ∧
    (wolframalphaValidate latex).success = false ∧
    (wolframalphaValidate latex).is_valid = none ∧
    (wolframalphaValidate latex).time_ms = 0 ∧
    (validateOne (fun _ x => .ok (wolframalphaValidate x)) "wolframalpha" latex).success
      = false :=
  ⟨rfl, rfl, rfl, rfl, rfl⟩

/-- C4: the MATLAB input guard `_validate_input` does reject every value
containing a newline (or carriage return or NUL), but it ACCEPTS values
containing a semicolon: `x;y` passes the guard even though it contains
`;`, contradicting the claim that the guard rejects every value with an
embedded newline or semicolon. -/
theorem C4_matlab_guard_semicolon :
    matlab_validate_input "x;y" = true ∧
      ';' ∈ ("x;y" : String).toList ∧
      matlab_validate_input "x\ny" = false ∧
      matlab_validate_input "x\x0dy" = false := by
  decide

set_option maxRecDepth 8192 in
/-- C3: a compute request for the MATLAB `evaluate` template with
`timeout_s = 1` against an engine configured with `timeout = 30` passes
all checks and reaches the subprocess invocation with wall-clock timeout
30 — the engine's own timeout, not `min(request.timeout_s, engine.timeout)
= 1`.  (`_run_matlab` passes `timeout=self.timeout` to `subprocess.run`
and never reads `request.timeout_s`.) -/
theorem C3_matlab_timeout_not_clamped :
    matlabCompute true 30 ⟨"matlab", "template", "evaluate", [("expression", "2+2")], 1⟩ 0 =
      Sum.inr ⟨matlabBuildComputeCode "evaluate" [("expression", "2+2")], 30⟩ ∧
      min (1 : Nat) 30 = 1 ∧ (30 : Nat) ≠ 1 := by
  decide

/-- C2 (amended): a `/validate` request with neither an explicit engines
list nor `consensus=true` selects exactly the single default engine when a
default was chosen at startup; when no default exists the selection is the
full list of registered engine names — not the empty selection the
original claim describes. -/
theorem C2_selection_uses_default_or_all (engines : List (String × EngineEntry))
    (envDefault : String) :
    (computeDefaultEngine envDefault engines ≠ "" →
      selectEngines none false engines (computeDefaultEngine envDefault engines) =
        [computeDefaultEngine envDefault engines]) ∧
    (computeDefaultEngine envDefault engines = "" →
      selectEngines none false engines (computeDefaultEngine envDefault engines) =
        engines.map Prod.fst) := by
  constructor <;> intro h <;> simp [selectEngines, h]

/-- C2 witness: with one available engine and no override the startup
default is `sympy` and the default selection is exactly `[sympy]`. -/
theorem C2_witness :
    computeDefaultEngine "" regC2 = "sympy" ∧
      selectEngines none false regC2 "sympy" = ["sympy"] := by
  have hdef : computeDefaultEngine "" regC2 = "sympy" := by decide
  refine ⟨hdef, ?_⟩
  have h := (C2_selection_uses_default_or_all regC2 "").1
  rw [hdef] at h
  exact h (by decide)

/-- C2 counterexample: with two registered but unavailable engines the
startup default is the empty string, yet the default engine selection is
the full registry key list `[sympy, matlab]`, not the empty selection the
claim requires when no default engine exists. -/
theorem C2_counterexample :
    computeDefaultEngine "" regC2x = "" ∧
      selectEngines none false regC2x (computeDefaultEngine "" regC2x) =
        ["sympy", "matlab"] ∧
      selectEngines none false regC2x (computeDefaultEngine "" regC2x) ≠ [] := by
  decide

/-- C5 (amended): for every normally-completed execution, `run` caps both
captured streams at the effective `max_output` and sets `truncated`
exactly when a raw stream exceeded the cap, while recording the observed
return code; the timeout and command-not-found branches instead return
empty stdout and a fixed diagnostic stderr that is NOT subject to the cap
(see the counterexample), with `truncated = false`. -/
theorem C5_run_output_cap (cfg : ExecutorConfig) (out err : String) (rc : Int)
    (timeout_s max_output : Option Nat) (elapsed : Nat) :
    ((runExec cfg (.completedProc out err rc) timeout_s max_output elapsed).stdout.length ≤
        orDefault max_output cfg.max_output) ∧
    ((runExec cfg (.completedProc out err rc) timeout_s max_output elapsed).stderr.length ≤
        orDefault max_output cfg.max_output) ∧
    ((runExec cfg (.completedProc out err rc) timeout_s max_output elapsed).truncated = true ↔
      (orDefault max_output cfg.max_output < out.length ∨
        orDefault max_output cfg.max_output < err.length)) ∧
    (runExec cfg (.completedProc out err rc) timeout_s max_output elapsed).timed_out = false ∧
    (runExec cfg (.completedProc out err rc) timeout_s max_output elapsed).returncode = rc ∧
    (runExec cfg .timedOut timeout_s max_output elapsed).stdout = "" ∧
    (runExec cfg .timedOut timeout_s max_output elapsed).timed_out = true ∧
    (runExec cfg .timedOut timeout_s max_output elapsed).truncated = false := by
  refine ⟨?_, ?_, ?_, rfl, rfl, rfl, rfl, rfl⟩
  · show (takeStr (orDefault max_output cfg.max_output) out).length ≤ _
    rw [show (takeStr (orDefault max_output cfg.max_output) out).length =
      (out.toList.take (orDefault max_output cfg.max_output)).length from rfl]
    rw [List.length_take]
    exact min_le_left _ _
  · show (takeStr (orDefault max_output cfg.max_output) err).length ≤ _
    rw [show (takeStr (orDefault max_output cfg.max_output) err).length =
      (err.toList.take (orDefault max_output cfg.max_output)).length from rfl]
    rw [List.length_take]
    exact min_le_left _ _
  · show (decide (orDefault max_output cfg.max_output < out.length) ||
      decide (orDefault max_output cfg.max_output < err.length)) = true ↔ _
    simp

/-- C5 counterexample: a timed-out `run` with an explicit output cap of 4
returns the fixed diagnostic stderr `Process timed out after 30s`, whose
length 27 exceeds the cap — so the claimed bound
`len(outcome.stderr) <= max_output` fails on the timeout branch. -/
theorem C5_counterexample :
    (runExec ⟨30, 65536, 100⟩ ProcBehavior.timedOut none (some 4) 120).stderr =
        "Process timed out after 30s" ∧
      ¬((runExec ⟨30, 65536, 100⟩ ProcBehavior.timedOut none (some 4) 120).stderr.length ≤
          orDefault (some 4) 65536) := by
  decide


/-! ## Eviction theorems -/

theorem length_filter_split {α : Type} (p : α → Bool) (l : List α) :
    (l.filter p).length + (l.filter fun a => !(p a)).length = l.length := by
  induction l with
  | nil => rfl
  | cons a as ih =>
    cases hpa : p a <;> simp [List.filter_cons, hpa] <;> omega

theorem evictDeleteSet_terminal (max_jobs : Nat) (jobs : List Job) :
    ∀ d ∈ evictDeleteSet max_jobs jobs, isTerminal d.status = true ∧ d ∈ jobs := by
  intro d hd
  have hmem : d ∈ (jobs.filter fun j => isTerminal j.status).insertionSort
      fun a b => a.created_at ≤ b.created_at := List.mem_of_mem_take hd
  have hfil : d ∈ jobs.filter fun j => isTerminal j.status :=
    (List.perm_insertionSort _ _).mem_iff.mp hmem
  have hp := List.mem_filter.mp hfil
  exact ⟨hp.2, hp.1⟩

theorem evictDeleteSet_nodup (max_jobs : Nat) (jobs : List Job)
    (hids : (jobs.map Job.id).Nodup) : (evictDeleteSet max_jobs jobs).Nodup := by
  have hjobs : jobs.Nodup := List.Nodup.of_map Job.id hids
  have hfil : (jobs.filter fun j => isTerminal j.status).Nodup := hjobs.filter _
  have hsort : ((jobs.filter fun j => isTerminal j.status).insertionSort
      fun a b => a.created_at ≤ b.created_at).Nodup :=
    ((List.perm_insertionSort _ _).nodup_iff).mpr hfil
  exact (List.take_sublist _ _).nodup hsort

theorem evictDeleteSet_length (max_jobs : Nat) (jobs : List Job) :
    (evictDeleteSet max_jobs jobs).length =
      min (jobs.length - max_jobs + 1)
        ((jobs.filter fun j => isTerminal j.status).length) := by
  simp only [evictDeleteSet]
  rw [List.length_take, (List.perm_insertionSort _ _).length_eq]

/-- C6 (amended): after an eviction pass the retained job count is at most
the larger of `max_jobs - 1` and the number of non-terminal jobs — the
configured bound can be exceeded only when the excess jobs are all still
pending or running, because only terminal jobs are evictable — and no
pending or running job is ever evicted.  (`hids` is the job-table
invariant that dict keys, the job ids, are distinct.) -/
theorem C6_eviction_bound (max_jobs : Nat) (jobs : List Job)
    (hids : (jobs.map Job.id).Nodup) :
    (evictOldJobs max_jobs jobs).length ≤
        max (max_jobs - 1) ((jobs.filter fun j => !isTerminal j.status).length) ∧
      ∀ j ∈ jobs, isTerminal j.status = false → j ∈ evictOldJobs max_jobs jobs := by
  have hinj := List.inj_on_of_nodup_map hids
  by_cases hlt : jobs.length < max_jobs
  · constructor
    · simp only [evictOldJobs]
      rw [if_pos hlt]
      exact le_max_of_le_left (Nat.le_pred_of_lt hlt)
    · intro j hj _
      simp only [evictOldJobs]
      rw [if_pos hlt]
      exact hj
  · constructor
    · simp only [evictOldJobs]
      rw [if_neg hlt]
      have hsplit := length_filter_split
        (fun j => !((evictDeleteSet max_jobs jobs).any fun d => d.id = j.id)) jobs
      have hsub : evictDeleteSet max_jobs jobs ⊆
          jobs.filter fun a =>
            !(!((evictDeleteSet max_jobs jobs).any fun d => d.id = a.id)) := by
        intro d hd
        refine List.mem_filter.mpr ⟨(evictDeleteSet_terminal max_jobs jobs d hd).2, ?_⟩
        have hany : ((evictDeleteSet max_jobs jobs).any fun x => x.id = d.id) = true :=
          List.any_eq_true.mpr ⟨d, hd, by simp⟩
        simp [hany]
      have hrem : (evictDeleteSet max_jobs jobs).length ≤
          (jobs.filter fun a =>
            !(!((evictDeleteSet max_jobs jobs).any fun d => d.id = a.id))).length :=
        ((evictDeleteSet_nodup max_jobs jobs hids).subperm hsub).length_le
      have hdlen := evictDeleteSet_length max_jobs jobs
      have hTsplit := length_filter_split (fun j => isTerminal j.status) jobs
      omega
    · intro j hj hterm
      simp only [evictOldJobs]
      rw [if_neg hlt]
      refine List.mem_filter.mpr ⟨hj, ?_⟩
      have hfalse : ((evictDeleteSet max_jobs jobs).any fun d => d.id = j.id) = false := by
        rw [List.any_eq_false]
        intro d hd hdid
        have hdt := evictDeleteSet_terminal max_jobs jobs d hd
        have hdj : d = j := hinj hdt.2 hj (by simpa using hdid)
        rw [hdj] at hdt
        rw [hterm] at hdt
        exact absurd hdt.1 (by simp)
      simp [hfalse]


/-- C6 witness: the amended eviction bound applied to the concrete table
of two pending jobs with `max_jobs = 1` (the pass keeps both, within
`max(0, 2)`, and evicts neither). -/
theorem C6_witness :
    (evictOldJobs 1 tblC6).length ≤
        max (1 - 1) ((tblC6.filter fun j => !isTerminal j.status).length) ∧
      ∀ j ∈ tblC6, isTerminal j.status = false → j ∈ evictOldJobs 1 tblC6 :=
  C6_eviction_bound 1 tblC6 (by decide)

/-- C6 counterexample: with `max_jobs = 1` and a table of two pending
jobs, the eviction pass (which only ever deletes terminal jobs) retains
both jobs, so the retained count 2 exceeds the configured bound 1 — the
claim that every eviction pass restores `count ≤ max_jobs` is false. -/
theorem C6_counterexample :
    (evictOldJobs 1 tblC6).length = 2 ∧ ¬((evictOldJobs 1 tblC6).length ≤ 1) := by
  decide

/-! ## Job cancellation theorems -/

theorem stepJob_pending_inv (s : JobState)
    (h : s.status = JobStatus.pending → s.spawned = false ∧ s.phase = WorkerPhase.notStarted)
    (e : ExecEvent) :
    (stepJob s e).status = JobStatus.pending →
      (stepJob s e).spawned = false ∧ (stepJob s e).phase = WorkerPhase.notStarted := by
  cases e with
  | cancelAttempt =>
    by_cases hp : s.status = JobStatus.pending
    · intro habs
      rw [show stepJob s ExecEvent.cancelAttempt =
        ⟨JobStatus.cancelled, s.phase, s.spawned⟩ from by simp [stepJob, hp]] at habs
      exact absurd habs (by simp)
    · rw [show stepJob s ExecEvent.cancelAttempt = s from by simp [stepJob, hp]]
      exact h
  | workerBegin =>
    by_cases hph : s.phase ≠ WorkerPhase.notStarted
    · rw [show stepJob s ExecEvent.workerBegin = s from by simp [stepJob, hph]]
      exact h
    · by_cases hc : s.status = JobStatus.cancelled
      · intro habs
        rw [show stepJob s ExecEvent.workerBegin =
          ⟨s.status, WorkerPhase.exited, s.spawned⟩ from by simp [stepJob, hph, hc]] at habs
        rw [hc] at habs
        exact absurd habs (by simp)
      · intro habs
        rw [show stepJob s ExecEvent.workerBegin =
          ⟨JobStatus.running, WorkerPhase.launched, true⟩ from by
            simp [stepJob, hph, hc]] at habs
        exact absurd habs (by simp)
  | workerFinish r =>
    by_cases hph : s.phase = WorkerPhase.launched
    · intro habs
      have hst : (stepJob s (ExecEvent.workerFinish r)).status =
          (if r.timed_out then JobStatus.timeout
           else if r.returncode = 0 then JobStatus.completed
           else JobStatus.failed) := by simp [stepJob, hph]
      rw [hst] at habs
      by_cases ht : r.timed_out
      · rw [if_pos ht] at habs
        exact absurd habs (by simp)
      · rw [if_neg ht] at habs
        by_cases hrc : r.returncode = 0
        · rw [if_pos hrc] at habs
          exact absurd habs (by simp)
        · rw [if_neg hrc] at habs
          exact absurd habs (by simp)
    · rw [show stepJob s (ExecEvent.workerFinish r) = s from by simp [stepJob, hph]]
      exact h

theorem runJob_pending_inv (events : List ExecEvent) :
    ∀ (s : JobState),
      (s.status = JobStatus.pending → s.spawned = false ∧ s.phase = WorkerPhase.notStarted) →
      (runJob s events).status = JobStatus.pending →
        (runJob s events).spawned = false ∧
          (runJob s events).phase = WorkerPhase.notStarted := by
  induction events with
  | nil => intro s h; exact h
  | cons e es ih =>
    intro s h
    exact ih (stepJob s e) (stepJob_pending_inv s h e)

theorem stepJob_cancelled_stays (s : JobState)
    (h : s.status = JobStatus.cancelled ∧ s.spawned = false ∧ s.phase ≠ WorkerPhase.launched)
    (e : ExecEvent) :
    (stepJob s e).status = JobStatus.cancelled ∧ (stepJob s e).spawned = false ∧
      (stepJob s e).phase ≠ WorkerPhase.launched := by
  obtain ⟨hs, hsp, hph⟩ := h
  cases e with
  | cancelAttempt =>
    rw [show stepJob s ExecEvent.cancelAttempt = s from by simp [stepJob, hs]]
    exact ⟨hs, hsp, hph⟩
  | workerBegin =>
    by_cases hns : s.phase ≠ WorkerPhase.notStarted
    · rw [show stepJob s ExecEvent.workerBegin = s from by simp [stepJob, hns]]
      exact ⟨hs, hsp, hph⟩
    · rw [show stepJob s ExecEvent.workerBegin =
        ⟨s.status, WorkerPhase.exited, s.spawned⟩ from by simp [stepJob, hns, hs]]
      exact ⟨hs, hsp, by simp⟩
  | workerFinish r =>
    rw [show stepJob s (ExecEvent.workerFinish r) = s from by simp [stepJob, hph]]
    exact ⟨hs, hsp, hph⟩

theorem runJob_cancelled_stays (events : List ExecEvent) :
    ∀ (s : JobState),
      (s.status = JobStatus.cancelled ∧ s.spawned = false ∧
        s.phase ≠ WorkerPhase.launched) →
      (runJob s events).status = JobStatus.cancelled ∧
        (runJob s events).spawned = false ∧
        (runJob s events).phase ≠ WorkerPhase.launched := by
  induction events with
  | nil => intro s h; exact h
  | cons e es ih =>
    intro s h
    exact ih (stepJob s e) (stepJob_cancelled_stays s h e)

/-- C9: a job cancelled while pending never runs.  If, after any
serialized history `pre` since submission, `cancel` succeeds (the job is
pending — so, by the reachability invariant, its worker has not spawned
anything), then after the cancellation every further serialized history
`post` leaves the job's status `cancelled` and the subprocess is never
spawned: the worker's first locked section sees the cancelled status and
returns without executing the command. -/
theorem C9_cancel_pending_is_final (pre post : List ExecEvent)
    (hcancel : cancelOk (runJob initJobState pre) = true) :
    (runJob (stepJob (runJob initJobState pre) ExecEvent.cancelAttempt) post).status =
        JobStatus.cancelled ∧
      (runJob (stepJob (runJob initJobState pre) ExecEvent.cancelAttempt) post).spawned =
        false := by
  have hpend : (runJob initJobState pre).status = JobStatus.pending := by
    simpa [cancelOk] using hcancel
  have hq := runJob_pending_inv pre initJobState (fun _ => ⟨rfl, rfl⟩) hpend
  have hc : stepJob (runJob initJobState pre) ExecEvent.cancelAttempt =
      ⟨JobStatus.cancelled, (runJob initJobState pre).phase,
        (runJob initJobState pre).spawned⟩ := by
    simp [stepJob, hpend]
  have hP := runJob_cancelled_stays post
    (stepJob (runJob initJobState pre) ExecEvent.cancelAttempt)
    (by rw [hc]; exact ⟨rfl, hq.1, by rw [hq.2]; simp⟩)
  exact ⟨hP.1, hP.2.1⟩

/-- C9 witness: the theorem applied to the concrete history where the job
is cancelled immediately after submission and the worker then wakes up and
a stray finish event arrives: the status stays cancelled and nothing is
spawned. -/
theorem C9_witness :
    (runJob (stepJob (runJob initJobState []) ExecEvent.cancelAttempt)
        [ExecEvent.workerBegin, ExecEvent.workerFinish ⟨0, "", "", 5, false, false⟩]).status =
        JobStatus.cancelled ∧
      (runJob (stepJob (runJob initJobState []) ExecEvent.cancelAttempt)
        [ExecEvent.workerBegin, ExecEvent.workerFinish ⟨0, "", "", 5, false, false⟩]).spawned =
        false :=
  C9_cancel_pending_is_final []
    [ExecEvent.workerBegin, ExecEvent.workerFinish ⟨0, "", "", 5, false, false⟩]
    (by decide)


/-! ## Parallel validate theorems -/

theorem resultMapFold (vf : String → String → Except String EngineResult) (x : String) :
    ∀ (order : List String) (m0 : String → Option EngineResult) (n : String),
      (order.foldl (fun m name => resultMapInsert m name (validateOne vf name x)) m0) n =
        if n ∈ order then some (validateOne vf n x) else m0 n
  | [], m0, n => by simp
  | a :: as, m0, n => by
    simp only [List.foldl_cons]
    rw [resultMapFold vf x as (resultMapInsert m0 a (validateOne vf a x)) n]
    by_cases hn : n ∈ as
    · simp [hn]
    · by_cases hna : n = a
      · subst hna
        simp [hn, resultMapInsert]
      · simp [hn, hna, resultMapInsert]

theorem buildResultMap_mem (vf : String → String → Except String EngineResult)
    (x : String) (order : List String) (n : String) (hn : n ∈ order) :
    buildResultMap vf x order n = some (validateOne vf n x) := by
  simp only [buildResultMap]
  rw [resultMapFold vf x order (fun _ => none) n]
  simp [hn]

theorem validateParallel_eq_map (vf : String → String → Except String EngineResult)
    (pool : Bool) (names : List String) (x : String) (order : List String)
    (hperm : order.Perm names) :
    validateParallel vf pool names x order = names.map fun n => validateOne vf n x := by
  simp only [validateParallel]
  split
  · rfl
  · apply List.map_congr_left
    intro n hn
    rw [buildResultMap_mem vf x order n (hperm.mem_iff.mpr hn)]

/-- C7: for every `/validate` engine selection and every completion order
of the parallel per-engine futures, the assembled results list projects to
the selection itself: it has one entry per selected engine and its i-th
entry carries the i-th selected engine's name — provided each engine's
normal result reports its own registered name, which every engine in the
registry does. -/
theorem C7_validate_results_in_selection_order
    (vf : String → String → Except String EngineResult) (pool : Bool)
    (names : List String) (x : String) (order : List String)
    (hperm : order.Perm names)
    (hengine : ∀ n ∈ names, ∀ r, vf n x = .ok r → r.engine = n) :
    (validateParallel vf pool names x order).map EngineResult.engine = names := by
  rw [validateParallel_eq_map vf pool names x order hperm, List.map_map]
  have hpt : ∀ n ∈ names, (EngineResult.engine ∘ fun n => validateOne vf n x) n = id n := by
    intro n hn
    simp only [Function.comp, id]
    cases hv : vf n x with
    | ok r =>
      simp only [validateOne, hv]
      exact hengine n hn r hv
    | error e => simp [validateOne, hv]
  rw [List.map_congr_left hpt, List.map_id]

/-- C7 witness: two engines submitted in order `[sage, sympy]` whose
futures complete in the opposite order still produce a results list whose
engines read `[sage, sympy]`. -/
theorem C7_witness :
    (validateParallel vfC7 true ["sage", "sympy"] "x" ["sympy", "sage"]).map
        EngineResult.engine = ["sage", "sympy"] :=
  C7_validate_results_in_selection_order vfC7 true ["sage", "sympy"] "x"
    ["sympy", "sage"] (by decide)
    (fun n _ r h => by
      simp only [vfC7, Except.ok.injEq] at h
      rw [← h])

/-- C8: in a multi-engine validate, an engine whose validate raises is
recorded in its own slot as `success = false`, `error` the exception text
and `time_ms = 0`, while every engine that returns normally keeps its own
converted result in its own slot — the failure never leaks into sibling
slots, and (the embedding being a total function) no exception reaches
the caller. -/
theorem C8_engine_failure_is_local
    (vf : String → String → Except String EngineResult) (pool : Bool)
    (names : List String) (x : String) (order : List String)
    (hperm : order.Perm names) :
    (∀ (i : Nat) (n e : String), names[i]? = some n → vf n x = .error e →
      (validateParallel vf pool names x order)[i]? =
        some ⟨n, false, none, none, none, some e, 0⟩) ∧
    (∀ (i : Nat) (n : String) (r : EngineResult), names[i]? = some n → vf n x = .ok r →
      (validateParallel vf pool names x order)[i]? =
        some ⟨r.engine, r.success, r.is_valid, r.simplified, r.original_parsed,
          r.error, r.time_ms⟩) := by
  rw [validateParallel_eq_map vf pool names x order hperm]
  constructor
  · intro i n e hi he
    rw [List.getElem?_map, hi]
    simp [validateOne, he]
  · intro i n r hi hr
    rw [List.getElem?_map, hi]
    simp [validateOne, hr]

/-- C8 witness: engine `bad` raises `boom` and engine `good` returns
normally; with the completion order reversed, slot 0 carries the converted
failure and slot 1 the normal result. -/
theorem C8_witness :
    (validateParallel vfC8 true ["bad", "good"] "x" ["good", "bad"])[0]? =
        some ⟨"bad", false, none, none, none, some "boom", 0⟩ ∧
      (validateParallel vfC8 true ["bad", "good"] "x" ["good", "bad"])[1]? =
        some ⟨"good", true, none, none, none, none, 7⟩ := by
  have h := C8_engine_failure_is_local vfC8 true ["bad", "good"] "x" ["good", "bad"]
    (by decide)
  exact ⟨h.1 0 "bad" "boom" rfl (by simp [vfC8]),
    h.2 1 "good" ⟨"good", true, none, none, none, none, 7⟩ rfl (by simp [vfC8])⟩

end CasService
